import Mathlib

/-!
Shallow embedding of the bulk image renamer (src/bulk_image_renamer.py).

File names and paths are modelled as lists of characters; since every
operation works inside the single configured directory, a path is
represented by the file name relative to that directory.  Character
classes of the Python regular expressions and str.lower are modelled on
ASCII (the repository's examples and tests are ASCII).  Python's stable
list sort is modelled by a stable insertion sort, which produces the same
ordered result for a total preorder key.  Machine integers do not occur:
Python integers are arbitrary precision, so Int/Nat model them exactly.
-/

/-- ASCII model of the whitespace class of Python regular expressions. -/
def isPyWS (c : Char) : Bool :=
  c == ' ' || c == '\t' || c == '\n' || c == '\r' || c == '\x0b' || c == '\x0c'

/-- ASCII model of the word character class of Python regular expressions:
alphanumeric or underscore. -/
def isWordChar (c : Char) : Bool := c.isAlphanum || c == '_'

/-- Characters matched by the regular expression class of hyphen and
whitespace used in clean_filename. -/
def isHypWS (c : Char) : Bool := c == '-' || isPyWS c

/-- Upper/lower case letter pairs of ASCII. -/
def upperLower : List (Char × Char) :=
  [('A', 'a'), ('B', 'b'), ('C', 'c'), ('D', 'd'), ('E', 'e'), ('F', 'f'),
   ('G', 'g'), ('H', 'h'), ('I', 'i'), ('J', 'j'), ('K', 'k'), ('L', 'l'),
   ('M', 'm'), ('N', 'n'), ('O', 'o'), ('P', 'p'), ('Q', 'q'), ('R', 'r'),
   ('S', 's'), ('T', 't'), ('U', 'u'), ('V', 'v'), ('W', 'w'), ('X', 'x'),
   ('Y', 'y'), ('Z', 'z')]

/-- ASCII model of str.lower on a single character. -/
def pyLower (c : Char) : Char :=
  match upperLower.find? (fun p => p.1 == c) with
  | some p => p.2
  | none => c

/-- Decimal digit character for a single digit. -/
def digitChar : Nat → Char
  | 0 => '0' | 1 => '1' | 2 => '2' | 3 => '3' | 4 => '4'
  | 5 => '5' | 6 => '6' | 7 => '7' | 8 => '8' | _ => '9'

/-- Inverse of digitChar on decimal digit characters. -/
def charToDigit : Char → Nat
  | '0' => 0 | '1' => 1 | '2' => 2 | '3' => 3 | '4' => 4
  | '5' => 5 | '6' => 6 | '7' => 7 | '8' => 8 | _ => 9

/-- Fuelled worker for natDigits; fuel larger than the value is enough,
and keeps the recursion structural so that terms evaluate by reduction. -/
def natDigitsGo : Nat → Nat → List Char
  | 0, _ => []
  | fuel + 1, n =>
    if n < 10 then [digitChar n] else natDigitsGo fuel (n / 10) ++ [digitChar (n % 10)]

/-- Decimal digit string of a natural number, as produced by str. -/
def natDigits (n : Nat) : List Char := natDigitsGo (n + 1) n

theorem natDigitsGo_fuel {f n : Nat} (h : n < f) : natDigitsGo f n = natDigits n := by
  induction n using Nat.strong_induction_on generalizing f with
  | _ n ih =>
    rcases f with _ | g
    · omega
    · unfold natDigits
      show natDigitsGo (g + 1) n = natDigitsGo (n + 1) n
      unfold natDigitsGo
      by_cases h10 : n < 10
      · rw [if_pos h10, if_pos h10]
      · rw [if_neg h10, if_neg h10]
        have hd : n / 10 < n := Nat.div_lt_self (by omega) (by omega)
        rw [ih (n / 10) hd (by omega), ih (n / 10) hd (by omega)]

/-- The defining recurrence of natDigits. -/
theorem natDigits_eq (n : Nat) :
    natDigits n = if n < 10 then [digitChar n] else natDigits (n / 10) ++ [digitChar (n % 10)] := by
  show natDigitsGo (n + 1) n = _
  unfold natDigitsGo
  by_cases h10 : n < 10
  · rw [if_pos h10, if_pos h10]
  · rw [if_neg h10, if_neg h10]
    rw [natDigitsGo_fuel (show n / 10 < n from Nat.div_lt_self (by omega) (by omega))]

/-- Decimal string of a Python integer, as produced by str. -/
def intStr (n : Int) : List Char :=
  if n < 0 then '-' :: natDigits (- n).toNat else natDigits n.toNat

/-- Left padding with zero characters up to a requested width. -/
def leftFill (w : Nat) (s : List Char) : List Char :=
  List.replicate (w - s.length) '0' ++ s

/-- Model of str.zfill: pad with zeros to the requested width, keeping a
leading minus sign in front of the padding.  (A plus sign never occurs in
the output of str on an integer, so only the minus case is modelled.) -/
def pyZfill (w : Nat) (s : List Char) : List Char :=
  match s with
  | c :: r => if c = '-' then '-' :: leftFill (w - 1) r else leftFill w s
  | [] => leftFill w s

/-- Lexicographic (code point) strict comparison of strings, as Python
compares str values. -/
def lexLt : List Char → List Char → Bool
  | [], [] => false
  | [], _ :: _ => true
  | _ :: _, [] => false
  | a :: s, b :: t =>
    if a.toNat < b.toNat then true
    else if b.toNat < a.toNat then false
    else lexLt s t

/-- Non-strict name order used by sorted(): a before b iff not (b < a). -/
def nameLe (a b : List Char) : Bool := !(lexLt b a)

/-- Stable insertion of an element into a sorted list (a lands before the
first element it is le-related to). -/
def orderedInsertB {α : Type} (le : α → α → Bool) (a : α) : List α → List α
  | [] => [a]
  | b :: l => if le a b then a :: b :: l else b :: orderedInsertB le a l

/-- Stable insertion sort; models Python's stable list sort, which yields
the same result for a total preorder. -/
def insertionSortB {α : Type} (le : α → α → Bool) : List α → List α
  | [] => []
  | a :: l => orderedInsertB le a (insertionSortB le l)

/-- Split a name at its last dot: some (before, after) when a dot exists,
as str.rsplit with one split. -/
def rsplitDot : List Char → Option (List Char × List Char)
  | [] => none
  | c :: r =>
    match rsplitDot r with
    | some (s, e) => some (c :: s, e)
    | none => if c = '.' then some ([], r) else none

/-- Model of pathlib suffix: the extension including its dot, and the empty
string when the only dot is leading or trailing or there is none. -/
def pathSuffix (name : List Char) : List Char :=
  match rsplitDot name with
  | none => []
  | some (s, e) => if s = [] ∨ e = [] then [] else '.' :: e

/-- The lower-cased extension of a file name (file.suffix.lower()). -/
def extLower (name : List Char) : List Char := (pathSuffix name).map pyLower

/-- The set of recognized image extensions. -/
def supportedExtensions : List (List Char) :=
  [('.' :: ['j', 'p', 'g']), ('.' :: ['j', 'p', 'e', 'g']),
   ('.' :: ['p', 'n', 'g']), ('.' :: ['g', 'i', 'f']),
   ('.' :: ['b', 'm', 'p']), ('.' :: ['w', 'e', 'b', 'p']),
   ('.' :: ['t', 'i', 'f', 'f']), ('.' :: ['s', 'v', 'g'])]

/-- A directory entry: its name, whether it is a regular file, and its
last-modified timestamp (timestamps modelled as naturals; only their
order matters). -/
structure DirEntry where
  name : List Char
  isFile : Bool
  mtime : Nat
deriving DecidableEq

/-- The configuration held by the ImageRenamer object.  prefixText and
suffixText model the prefix and suffix fields of the source. -/
structure Config where
  pattern : List Char
  start_number : Int
  prefixText : List Char
  suffixText : List Char
  padding : Nat
  dry_run : Bool

/-- get_image_files: sort all directory entries by name, keep regular
files with a recognized (lower-cased) extension. -/
def get_image_files (dir : List DirEntry) : List DirEntry :=
  (insertionSortB (fun a b => nameLe a.name b.name) dir).filter
    (fun f => f.isFile && decide (extLower f.name ∈ supportedExtensions))

/-- Map with the running index, as enumerate provides it. -/
def mapWithIdx {α β : Type} (f : Nat → α → β) : Nat → List α → List β
  | _, [] => []
  | i, a :: l => f i a :: mapWithIdx f (i + 1) l

/-- The zero-filled decimal string str(start_number + index).zfill(padding). -/
def numberString (start : Int) (padding : Nat) (index : Nat) : List Char :=
  pyZfill padding (intStr (start + (index : Int)))

/-- generate_new_name: prefix, pattern, underscore, padded number, suffix,
extension. -/
def generate_new_name (cfg : Config) (index : Nat) (extension : List Char) : List Char :=
  cfg.prefixText ++ cfg.pattern ++ '_' ::
    (numberString cfg.start_number cfg.padding index ++ cfg.suffixText ++ extension)

/-- rename_sequential: one mapping entry per selected file, in selector
order, names generated from the running index. -/
def rename_sequential (cfg : Config) (dir : List DirEntry) : List (List Char × List Char) :=
  mapWithIdx (fun i f => (f.name, generate_new_name cfg i (extLower f.name))) 0
    (get_image_files dir)

/-- The key comparison of the sort call of rename_by_date. -/
def dateKeyLe (a b : DirEntry) : Bool := decide (a.mtime ≤ b.mtime)

/-- The selected files re-sorted (stably) by last-modified time, as
rename_by_date produces them before generating names. -/
def dateSortedFiles (dir : List DirEntry) : List DirEntry :=
  insertionSortB dateKeyLe (get_image_files dir)

/-- rename_by_date: the selected files re-sorted (stably) by mtime before
the same name generation. -/
def rename_by_date (cfg : Config) (dir : List DirEntry) : List (List Char × List Char) :=
  mapWithIdx (fun i f => (f.name, generate_new_name cfg i (extLower f.name))) 0
    (dateSortedFiles dir)

/-- Model of str.replace for the literal three character token of n in
braces: scan left to right, replacing each non-overlapping occurrence, as
the first replace call of rename_with_custom_pattern does. -/
def replaceN (x : List Char) : List Char → List Char
  | '{' :: 'n' :: '}' :: r => x ++ replaceN x r
  | c :: r => c :: replaceN x r
  | [] => []

/-- Model of str.replace for the literal five character token of ext in
braces, as the second replace call of rename_with_custom_pattern does. -/
def replaceExt (e : List Char) : List Char → List Char
  | '{' :: 'e' :: 'x' :: 't' :: '}' :: r => e ++ replaceExt e r
  | c :: r => c :: replaceExt e r
  | [] => []

/-- rename_with_custom_pattern: substitute the number for each occurrence
of the n token and the lower-cased extension for each occurrence of the
ext token, via two str.replace passes. -/
def rename_with_custom_pattern (cfg : Config) (custom_pattern : List Char)
    (dir : List DirEntry) : List (List Char × List Char) :=
  mapWithIdx
    (fun i f =>
      (f.name,
        replaceExt (extLower f.name)
          (replaceN (numberString cfg.start_number cfg.padding i) custom_pattern)))
    0 (get_image_files dir)

/-- Characters kept by the first substitution of clean_filename (the
complement of the character class removed by it): word characters,
whitespace, hyphen. -/
def keepChar (c : Char) : Bool := isWordChar c || isPyWS c || c == '-'

mutual

/-- Collapse every run of hyphens and whitespace into one underscore, as
the second substitution of clean_filename does (leftmost-longest runs). -/
def collapseRuns : List Char → List Char
  | [] => []
  | c :: r => if isHypWS c then '_' :: collapseAfterRun r else c :: collapseRuns r

/-- State inside a run of hyphens and whitespace whose underscore has
already been emitted: skip the rest of the run. -/
def collapseAfterRun : List Char → List Char
  | [] => []
  | c :: r => if isHypWS c then collapseAfterRun r else c :: collapseRuns r

end

/-- Strip leading and trailing underscores, as str.strip does. -/
def stripUnd (l : List Char) : List Char :=
  (((l.dropWhile (fun c => c == '_')).reverse).dropWhile (fun c => c == '_')).reverse

/-- The stem normalization pipeline of clean_filename. -/
def cleanStem (s : List Char) : List Char :=
  (stripUnd (collapseRuns (List.filter keepChar s))).map pyLower

/-- clean_filename: normalize the stem, re-append the extension taken
verbatim from after the last dot (the source does not lower-case it). -/
def clean_filename (filename : List Char) : List Char :=
  match rsplitDot filename with
  | some (s, e) => cleanStem s ++ '.' :: e
  | none => cleanStem filename

/-- One step of the collision loop: insert an underscore and the counter
before the extension of the current candidate name.  The none branch is
unreachable for names produced by clean_filename on selected files (the
Python source would raise an IndexError there). -/
def addCounter (n : List Char) (k : Nat) : List Char :=
  match rsplitDot n with
  | some (s, e) => s ++ '_' :: natDigits k ++ '.' :: e
  | none => n ++ '_' :: natDigits k

/-- The collision while loop of rename_clean.  Each iteration strictly
lengthens the candidate, candidates are therefore pairwise distinct, and
the loop continues only while the candidate is an existing name, so at
most existing.length iterations occur; the fuel existing.length + 1 makes
the model total while matching the Python loop exactly. -/
def cleanLoop (existing : List (List Char)) (selfName : List Char) :
    Nat → Nat → List Char → List Char
  | 0, _, n => n
  | fuel + 1, k, n =>
    if decide (n ∈ existing) && !(n == selfName) then
      cleanLoop existing selfName fuel (k + 1) (addCounter n k)
    else n

/-- rename_clean: for each selected file, the cleaned name, pushed through
the collision loop against the names existing on disk. -/
def rename_clean (dir : List DirEntry) : List (List Char × List Char) :=
  (get_image_files dir).map
    (fun f =>
      (f.name,
        cleanLoop (dir.map DirEntry.name) f.name ((dir.map DirEntry.name).length + 1) 1
          (clean_filename f.name)))

/-- One console line of execute_rename. -/
inductive OutLine where
  | noFiles : OutLine
  | header (dry : Bool) (count : Nat) : OutLine
  | entryLine (oldName newName : List Char) : OutLine
  | errorLine (msg : List Char) : OutLine
  | dryRunDone : OutLine
  | successSummary (count : Nat) : OutLine
deriving DecidableEq

/-- execute_rename.  osRename gives the outcome the filesystem would
report for the i-th rename call (none is success, some msg the raised
error); the first component is the console output, the second the list of
renames actually performed on the filesystem. -/
def execute_rename (dry_run : Bool) (osRename : Nat → Option (List Char))
    (rename_map : List (List Char × List Char)) :
    List OutLine × List (List Char × List Char) :=
  if rename_map = [] then ([OutLine.noFiles], [])
  else
    (OutLine.header dry_run rename_map.length ::
      (mapWithIdx
        (fun i p =>
          OutLine.entryLine p.1 p.2 ::
            (if dry_run then []
             else
               match osRename i with
               | none => []
               | some e => [OutLine.errorLine e]))
        0 rename_map).flatten ++
      [if dry_run then OutLine.dryRunDone else OutLine.successSummary rename_map.length],
     if dry_run then []
     else
       (mapWithIdx
         (fun i p =>
           match osRename i with
           | none => [p]
           | some _ => [])
         0 rename_map).flatten)

/-! ### Character lemmas -/

theorem pyLower_spec (c : Char) : pyLower c = c ∨ (c, pyLower c) ∈ upperLower := by
  unfold pyLower
  cases h : upperLower.find? (fun p => p.1 == c) with
  | none => exact Or.inl rfl
  | some p =>
    right
    have hm := List.mem_of_find?_eq_some h
    have hp := List.find?_some h
    have hq : p.1 = c := by simpa using hp
    cases p with
    | mk p1 p2 => simpa [← hq] using hm

theorem upperLower_snd_word : ∀ p ∈ upperLower, isWordChar p.2 = true := by decide

theorem upperLower_snd_not_hypWS : ∀ p ∈ upperLower, isHypWS p.2 = false := by decide

theorem upperLower_snd_ne_dot : ∀ p ∈ upperLower, p.2 ≠ '.' := by decide

theorem upperLower_snd_ne_und : ∀ p ∈ upperLower, p.2 ≠ '_' := by decide

theorem upperLower_snd_fixed : ∀ p ∈ upperLower, pyLower p.2 = p.2 := by decide

theorem pyLower_ne_underscore {c : Char} (h : c ≠ '_') : pyLower c ≠ '_' := by
  rcases pyLower_spec c with he | hm
  · rw [he]; exact h
  · exact upperLower_snd_ne_und _ hm

theorem pyLower_ne_dot {c : Char} (h : c ≠ '.') : pyLower c ≠ '.' := by
  rcases pyLower_spec c with he | hm
  · rw [he]; exact h
  · exact upperLower_snd_ne_dot _ hm

theorem pyLower_not_hypWS {c : Char} (h : isHypWS c = false) : isHypWS (pyLower c) = false := by
  rcases pyLower_spec c with he | hm
  · rw [he]; exact h
  · exact upperLower_snd_not_hypWS _ hm

theorem keepChar_pyLower {c : Char} (h : keepChar c = true) : keepChar (pyLower c) = true := by
  rcases pyLower_spec c with he | hm
  · rw [he]; exact h
  · have := upperLower_snd_word _ hm
    simp [keepChar, this]

theorem pyLower_idem (c : Char) : pyLower (pyLower c) = pyLower c := by
  rcases pyLower_spec c with he | hm
  · simp only [he]
  · exact upperLower_snd_fixed _ hm

/-! ### Decimal string lemmas -/

/-- The numeric value a digit string denotes. -/
def digitsVal (l : List Char) : Nat := l.foldl (fun a c => 10 * a + charToDigit c) 0

theorem charToDigit_digitChar {d : Nat} (h : d < 10) : charToDigit (digitChar d) = d := by
  interval_cases d <;> rfl

theorem natDigits_ne_nil (n : Nat) : natDigits n ≠ [] := by
  rw [natDigits_eq]
  split <;> simp

theorem digitsVal_natDigits (n : Nat) : digitsVal (natDigits n) = n := by
  induction n using Nat.strong_induction_on with
  | _ n ih =>
    rw [natDigits_eq]
    split
    · next h => simp [digitsVal, charToDigit_digitChar h]
    · next h =>
      have hq := ih (n / 10) (Nat.div_lt_self (by omega) (by omega))
      have : digitsVal (natDigits (n / 10) ++ [digitChar (n % 10)]) =
          10 * digitsVal (natDigits (n / 10)) + charToDigit (digitChar (n % 10)) := by
        simp [digitsVal, List.foldl_append]
      rw [this, hq, charToDigit_digitChar (Nat.mod_lt _ (by omega))]
      omega

theorem natDigits_inj {a b : Nat} (h : natDigits a = natDigits b) : a = b := by
  rw [← digitsVal_natDigits a, ← digitsVal_natDigits b, h]

theorem digitChar_isDigit (d : Nat) : (digitChar d).isDigit = true := by
  unfold digitChar
  split <;> decide

theorem natDigits_all_digit (n : Nat) : ∀ c ∈ natDigits n, c.isDigit = true := by
  induction n using Nat.strong_induction_on with
  | _ n ih =>
    rw [natDigits_eq]
    split
    · intro c hc
      simp at hc
      rw [hc]; exact digitChar_isDigit _
    · next h =>
      intro c hc
      rw [List.mem_append] at hc
      rcases hc with hc | hc
      · exact ih (n / 10) (Nat.div_lt_self (by omega) (by omega)) c hc
      · simp at hc
        rw [hc]; exact digitChar_isDigit _

theorem natDigits_head_zero {n : Nat} (h : (natDigits n).head? = some '0') : n = 0 := by
  induction n using Nat.strong_induction_on with
  | _ n ih =>
    rw [natDigits_eq] at h
    by_cases h10 : n < 10
    · rw [if_pos h10] at h
      simp at h
      interval_cases n <;> simp_all <;> exact absurd h (by decide)
    · rw [if_neg h10] at h
      rw [List.head?_append] at h
      cases he : (natDigits (n / 10)).head? with
      | none =>
        exact absurd (List.head?_eq_none_iff.mp he) (natDigits_ne_nil _)
      | some c =>
        rw [he] at h
        simp at h
        have := ih (n / 10) (Nat.div_lt_self (by omega) (by omega)) (by rw [he, h])
        omega

/-! ### Zero-fill lemmas -/

theorem repl_natDigits_aux {j k a b : Nat} (hjk : j ≤ k)
    (h : List.replicate j '0' ++ natDigits a = List.replicate k '0' ++ natDigits b) :
    a = b := by
  have hk : k = j + (k - j) := by omega
  rw [hk, List.replicate_add, List.append_assoc] at h
  have h2 := (List.append_inj h (by simp)).2
  rcases hd : k - j with _ | m
  · rw [hd] at h2
    simp at h2
    exact natDigits_inj h2
  · rw [hd] at h2
    rw [List.replicate_succ] at h2
    have hz : a = 0 := natDigits_head_zero (by rw [h2]; rfl)
    subst hz
    have h6 : natDigits 0 = ['0'] := by rfl
    rw [h6] at h2
    have : (1 : Nat) = m + (natDigits b).length + 1 := by
      have := congrArg List.length h2
      simpa using this
    have hb : natDigits b ≠ [] := natDigits_ne_nil b
    have : (natDigits b).length = 0 := by omega
    exact absurd (List.eq_nil_of_length_eq_zero this) hb

theorem repl_natDigits_inj {j k a b : Nat}
    (h : List.replicate j '0' ++ natDigits a = List.replicate k '0' ++ natDigits b) :
    a = b := by
  rcases Nat.le_total j k with hle | hle
  · exact repl_natDigits_aux hle h
  · exact (repl_natDigits_aux hle h.symm).symm

theorem natDigits_head_ne_minus {n : Nat} {c : Char} (h : (natDigits n).head? = some c) :
    c ≠ '-' := by
  have hm : c ∈ natDigits n := by
    cases he : natDigits n with
    | nil => rw [he] at h; simp at h
    | cons x r =>
      rw [he] at h
      simp at h
      subst h
      exact List.mem_cons_self _ _
  have := natDigits_all_digit n c hm
  intro hc
  rw [hc] at this
  exact absurd this (by decide)

theorem leftFill_natDigits_head {m w : Nat} {c : Char}
    (h : (leftFill w (natDigits m)).head? = some c) : c ≠ '-' := by
  unfold leftFill at h
  rcases hj : w - (natDigits m).length with _ | i
  · rw [hj] at h
    simp at h
    exact natDigits_head_ne_minus h
  · rw [hj, List.replicate_succ] at h
    simp at h
    rw [← h]; decide

theorem pyZfill_intStr_nonneg {n : Int} (hn : 0 ≤ n) (w : Nat) :
    pyZfill w (intStr n) = leftFill w (natDigits n.toNat) := by
  have he : intStr n = natDigits n.toNat := by
    unfold intStr
    rw [if_neg (by omega)]
  rw [he]
  cases hd : natDigits n.toNat with
  | nil => exact absurd hd (natDigits_ne_nil _)
  | cons c r =>
    have hc : c ≠ '-' := natDigits_head_ne_minus (by rw [hd]; rfl)
    simp only [pyZfill]
    rw [if_neg hc]

theorem pyZfill_intStr_neg {n : Int} (hn : n < 0) (w : Nat) :
    pyZfill w (intStr n) = '-' :: leftFill (w - 1) (natDigits (-n).toNat) := by
  have he : intStr n = '-' :: natDigits (-n).toNat := by
    unfold intStr
    rw [if_pos hn]
  rw [he]
  simp [pyZfill]

theorem pyZfill_intStr_inj {w : Nat} {a b : Int}
    (h : pyZfill w (intStr a) = pyZfill w (intStr b)) : a = b := by
  rcases lt_or_le a 0 with ha | ha <;> rcases lt_or_le b 0 with hb | hb
  · rw [pyZfill_intStr_neg ha, pyZfill_intStr_neg hb] at h
    have h2 := List.tail_eq_of_cons_eq h
    unfold leftFill at h2
    have h3 := repl_natDigits_inj h2
    have h4 : (-a) = (-b) := by
      rw [← Int.toNat_of_nonneg (by omega : (0:Int) ≤ -a),
        ← Int.toNat_of_nonneg (by omega : (0:Int) ≤ -b), h3]
    omega
  · rw [pyZfill_intStr_neg ha, pyZfill_intStr_nonneg hb] at h
    have : (leftFill w (natDigits b.toNat)).head? = some '-' := by rw [← h]; rfl
    exact absurd rfl (leftFill_natDigits_head this)
  · rw [pyZfill_intStr_nonneg ha, pyZfill_intStr_neg hb] at h
    have : (leftFill w (natDigits a.toNat)).head? = some '-' := by rw [h]; rfl
    exact absurd rfl (leftFill_natDigits_head this)
  · rw [pyZfill_intStr_nonneg ha, pyZfill_intStr_nonneg hb] at h
    unfold leftFill at h
    have h3 := repl_natDigits_inj h
    have : (a.toNat : Int) = (b.toNat : Int) := by rw [h3]
    rwa [Int.toNat_of_nonneg ha, Int.toNat_of_nonneg hb] at this

theorem numberString_inj (start : Int) (padding : Nat) {i j : Nat} (hij : i ≠ j) :
    numberString start padding i ≠ numberString start padding j := by
  intro h
  have := pyZfill_intStr_inj h
  omega

theorem numberString_chars (start : Int) (padding : Nat) (i : Nat) :
    ∀ c ∈ numberString start padding i, c.isDigit = true ∨ c = '-' := by
  intro c hc
  unfold numberString at hc
  rcases lt_or_le (start + (i : Int)) 0 with hn | hn
  · rw [pyZfill_intStr_neg hn] at hc
    rcases List.mem_cons.mp hc with hc | hc
    · exact Or.inr hc
    · unfold leftFill at hc
      rcases List.mem_append.mp hc with hc | hc
      · left; have := List.eq_of_mem_replicate hc; rw [this]; decide
      · exact Or.inl (natDigits_all_digit _ c hc)
  · rw [pyZfill_intStr_nonneg hn] at hc
    unfold leftFill at hc
    rcases List.mem_append.mp hc with hc | hc
    · left; have := List.eq_of_mem_replicate hc; rw [this]; decide
    · exact Or.inl (natDigits_all_digit _ c hc)

theorem numberString_ne_nil (start : Int) (padding : Nat) (i : Nat) :
    numberString start padding i ≠ [] := by
  unfold numberString
  rcases lt_or_le (start + (i : Int)) 0 with hn | hn
  · rw [pyZfill_intStr_neg hn]; simp
  · rw [pyZfill_intStr_nonneg hn]
    unfold leftFill
    intro h
    have := natDigits_ne_nil (start + (i : Int)).toNat
    simp at h
    exact this h.2

theorem leftFill_length (w : Nat) (s : List Char) :
    (leftFill w s).length = max w s.length := by
  unfold leftFill
  simp
  omega

/-! ### mapWithIdx lemmas -/

theorem mapWithIdx_map_fst {α β γ : Type} (g : α → β) (h : Nat → α → γ) :
    ∀ (s : Nat) (l : List α),
      (mapWithIdx (fun i a => (g a, h i a)) s l).map Prod.fst = l.map g := by
  intro s l
  induction l generalizing s with
  | nil => rfl
  | cons a t ih => simp [mapWithIdx, ih]

theorem mapWithIdx_map_snd {α β γ : Type} (g : α → β) (h : Nat → α → γ) :
    ∀ (s : Nat) (l : List α),
      (mapWithIdx (fun i a => (g a, h i a)) s l).map Prod.snd = mapWithIdx h s l := by
  intro s l
  induction l generalizing s with
  | nil => rfl
  | cons a t ih => simp [mapWithIdx, ih]

theorem mapWithIdx_congr {α β : Type} {f g : Nat → α → β} (hfg : ∀ i a, f i a = g i a) :
    ∀ (s : Nat) (l : List α), mapWithIdx f s l = mapWithIdx g s l := by
  intro s l
  induction l generalizing s with
  | nil => rfl
  | cons a t ih => simp [mapWithIdx, hfg, ih]

theorem mem_mapWithIdx {α β : Type} {f : Nat → α → β} {b : β} :
    ∀ {s : Nat} {l : List α}, b ∈ mapWithIdx f s l → ∃ i a, s ≤ i ∧ a ∈ l ∧ b = f i a := by
  intro s l
  induction l generalizing s with
  | nil => intro h; simp [mapWithIdx] at h
  | cons x t ih =>
    intro h
    rcases List.mem_cons.mp h with h | h
    · exact ⟨s, x, Nat.le_refl s, List.mem_cons_self _ _, h⟩
    · rcases ih h with ⟨i, a, hs, ha, hb⟩
      exact ⟨i, a, by omega, List.mem_cons_of_mem _ ha, hb⟩

theorem pairwise_mapWithIdx {α β : Type} {R : β → β → Prop} {f : Nat → α → β} :
    ∀ (s : Nat) (l : List α),
      (∀ i j a b, a ∈ l → b ∈ l → i < j → R (f i a) (f j b)) →
      List.Pairwise R (mapWithIdx f s l) := by
  intro s l
  induction l generalizing s with
  | nil => intro _; exact List.Pairwise.nil
  | cons x t ih =>
    intro hf
    refine List.Pairwise.cons ?_ (ih (s + 1) ?_)
    · intro y hy
      rcases mem_mapWithIdx hy with ⟨i, a, hs, ha, hb⟩
      rw [hb]
      exact hf s i x a (List.mem_cons_self _ _) (List.mem_cons_of_mem _ ha) (by omega)
    · intro i j a b ha hb hij
      exact hf i j a b (List.mem_cons_of_mem _ ha) (List.mem_cons_of_mem _ hb) hij

/-! ### Insertion sort lemmas -/

theorem orderedInsertB_perm {α : Type} (le : α → α → Bool) (a : α) :
    ∀ l : List α, List.Perm (orderedInsertB le a l) (a :: l) := by
  intro l
  induction l with
  | nil => rfl
  | cons b t ih =>
    unfold orderedInsertB
    split
    · rfl
    · exact List.Perm.trans (List.Perm.cons b ih) (List.Perm.swap a b t)

theorem insertionSortB_perm {α : Type} (le : α → α → Bool) :
    ∀ l : List α, List.Perm (insertionSortB le l) l := by
  intro l
  induction l with
  | nil => rfl
  | cons a t ih =>
    exact List.Perm.trans (orderedInsertB_perm le a (insertionSortB le t))
      (List.Perm.cons a ih)

theorem mem_orderedInsertB {α : Type} {le : α → α → Bool} {a x : α} {l : List α} :
    x ∈ orderedInsertB le a l ↔ x = a ∨ x ∈ l := by
  rw [(orderedInsertB_perm le a l).mem_iff]
  simp

theorem pairwise_orderedInsertB {α : Type} {le : α → α → Bool}
    (htot : ∀ a b, le a b = true ∨ le b a = true)
    (htrans : ∀ a b c, le a b = true → le b c = true → le a c = true) (a : α) :
    ∀ l : List α, List.Pairwise (fun x y => le x y = true) l →
      List.Pairwise (fun x y => le x y = true) (orderedInsertB le a l) := by
  intro l
  induction l with
  | nil => intro _; simp [orderedInsertB]
  | cons b t ih =>
    intro hp
    unfold orderedInsertB
    rcases List.pairwise_cons.mp hp with ⟨hb, ht⟩
    split
    · next hab =>
      refine List.pairwise_cons.mpr ⟨?_, hp⟩
      intro y hy
      rcases List.mem_cons.mp hy with hy | hy
      · rw [hy]; exact hab
      · exact htrans a b y hab (hb y hy)
    · next hab =>
      have hba : le b a = true := by
        rcases htot a b with h | h
        · exact absurd h hab
        · exact h
      refine List.pairwise_cons.mpr ⟨?_, ih ht⟩
      intro y hy
      rcases mem_orderedInsertB.mp hy with hy | hy
      · rw [hy]; exact hba
      · exact hb y hy

theorem pairwise_insertionSortB {α : Type} {le : α → α → Bool}
    (htot : ∀ a b, le a b = true ∨ le b a = true)
    (htrans : ∀ a b c, le a b = true → le b c = true → le a c = true) :
    ∀ l : List α, List.Pairwise (fun x y => le x y = true) (insertionSortB le l) := by
  intro l
  induction l with
  | nil => exact List.Pairwise.nil
  | cons a t ih => exact pairwise_orderedInsertB htot htrans a _ ih

/-! ### Lexicographic order lemmas -/

theorem lexLt_asymm : ∀ a b : List Char, lexLt a b = true → lexLt b a = false := by
  intro a
  induction a with
  | nil =>
    intro b h
    cases b with
    | nil => simp [lexLt] at h
    | cons c t => rfl
  | cons x s ih =>
    intro b h
    cases b with
    | nil => simp [lexLt] at h
    | cons y t =>
      simp only [lexLt] at h ⊢
      by_cases h1 : x.toNat < y.toNat
      · rw [if_neg (by omega), if_pos h1]
      · by_cases h2 : y.toNat < x.toNat
        · rw [if_neg h1, if_pos h2] at h
          exact absurd h (by simp)
        · rw [if_neg h1, if_neg h2] at h
          rw [if_neg h2, if_neg h1]
          exact ih t h

theorem lexLt_linear : ∀ a b c : List Char, lexLt c a = true →
    lexLt b a = true ∨ lexLt c b = true := by
  intro a
  induction a with
  | nil =>
    intro b c h
    cases c with
    | nil => simp [lexLt] at h
    | cons z tc => simp [lexLt] at h
  | cons x s ih =>
    intro b c h
    cases c with
    | nil =>
      cases b with
      | nil => left; rfl
      | cons y tb => right; rfl
    | cons z tc =>
      cases b with
      | nil => left; rfl
      | cons y tb =>
        simp only [lexLt] at h ⊢
        by_cases hzx : z.toNat < x.toNat
        · by_cases hyx : y.toNat < x.toNat
          · left; rw [if_pos hyx]
          · by_cases hzy : z.toNat < y.toNat
            · right; rw [if_pos hzy]
            · exact absurd (show y.toNat < x.toNat by omega) hyx
        · by_cases hxz : x.toNat < z.toNat
          · rw [if_neg hzx, if_pos hxz] at h
            simp at h
          · rw [if_neg hzx, if_neg hxz] at h
            by_cases hyx : y.toNat < x.toNat
            · left; rw [if_pos hyx]
            · by_cases hxy : x.toNat < y.toNat
              · right
                rw [if_pos (by omega)]
              · rcases ih tb tc h with hl | hl
                · left
                  rw [if_neg hyx, if_neg hxy]
                  exact hl
                · right
                  rw [if_neg (by omega), if_neg (by omega)]
                  exact hl

theorem nameLe_total : ∀ a b : List Char, nameLe a b = true ∨ nameLe b a = true := by
  intro a b
  unfold nameLe
  by_cases h : lexLt b a = true
  · right
    rw [lexLt_asymm b a h]
    rfl
  · left
    simp at h
    rw [h]
    rfl

theorem nameLe_trans : ∀ a b c : List Char,
    nameLe a b = true → nameLe b c = true → nameLe a c = true := by
  intro a b c h1 h2
  unfold nameLe at *
  simp at h1 h2 ⊢
  by_cases hca : lexLt c a = true
  · rcases lexLt_linear a b c hca with h | h
    · rw [h1] at h; exact absurd h (by simp)
    · rw [h2] at h; exact absurd h (by simp)
  · simpa using hca

/-! ### rsplitDot lemmas -/

theorem rsplitDot_eq_none {l : List Char} : rsplitDot l = none ↔ '.' ∉ l := by
  induction l with
  | nil => simp [rsplitDot]
  | cons c r ih =>
    simp only [rsplitDot]
    cases h : rsplitDot r with
    | some p =>
      simp only []
      constructor
      · intro hc; cases hc
      · intro hc
        have : '.' ∉ r := by
          intro hm; exact hc (List.mem_cons_of_mem _ hm)
        rw [← ih] at this
        rw [h] at this
        cases this
    | none =>
      have hr : '.' ∉ r := ih.mp h
      by_cases hc : c = '.'
      · subst hc
        simp
      · simp [hc, hr, Ne.symm hc]

theorem rsplitDot_some {l s e : List Char} (h : rsplitDot l = some (s, e)) :
    l = s ++ '.' :: e ∧ '.' ∉ e := by
  induction l generalizing s e with
  | nil => simp [rsplitDot] at h
  | cons c r ih =>
    simp only [rsplitDot] at h
    cases hr : rsplitDot r with
    | some p =>
      rw [hr] at h
      cases p with
      | mk s' e' =>
        simp at h
        rcases h with ⟨hs, he⟩
        rcases ih hr with ⟨h1, h2⟩
        subst he
        rw [← hs]
        constructor
        · rw [h1]; rfl
        · exact h2
    | none =>
      rw [hr] at h
      by_cases hc : c = '.'
      · rw [if_pos hc] at h
        simp at h
        rcases h with ⟨hs, he⟩
        subst hc
        refine ⟨by rw [hs, he]; simp, he ▸ rsplitDot_eq_none.mp hr⟩
      · rw [if_neg hc] at h
        cases h

theorem rsplitDot_append {t e' : List Char} (ht : '.' ∉ t) (he : '.' ∉ e') :
    rsplitDot (t ++ '.' :: e') = some (t, e') := by
  induction t with
  | nil =>
    simp only [List.nil_append, rsplitDot]
    rw [rsplitDot_eq_none.mpr he]
    simp
  | cons c r ih =>
    have hc : c ≠ '.' := by
      intro hc; exact ht (by rw [hc]; exact List.mem_cons_self _ _)
    have hr : '.' ∉ r := by
      intro hm; exact ht (List.mem_cons_of_mem _ hm)
    simp only [List.cons_append, rsplitDot, List.append_eq]
    rw [ih hr]

/-! ### Selected files facts -/

theorem get_image_files_ext {dir : List DirEntry} :
    ∀ f ∈ get_image_files dir, extLower f.name ∈ supportedExtensions := by
  intro f hf
  unfold get_image_files at hf
  have := List.of_mem_filter hf
  simp at this
  exact this.2

theorem get_image_files_sorted (dir : List DirEntry) :
    List.Pairwise (fun a b : DirEntry => nameLe a.name b.name = true) (get_image_files dir) := by
  unfold get_image_files
  apply List.Pairwise.filter
  exact pairwise_insertionSortB
    (fun a b => nameLe_total a.name b.name)
    (fun a b c => nameLe_trans a.name b.name c.name) dir

theorem get_image_files_names_nodup {dir : List DirEntry}
    (h : (dir.map DirEntry.name).Nodup) :
    ((get_image_files dir).map DirEntry.name).Nodup := by
  have hperm : List.Perm ((insertionSortB (fun a b => nameLe a.name b.name) dir).map DirEntry.name)
      (dir.map DirEntry.name) :=
    (insertionSortB_perm _ dir).map DirEntry.name
  have hs : ((insertionSortB (fun a b => nameLe a.name b.name) dir).map DirEntry.name).Nodup :=
    hperm.nodup_iff.mpr h
  unfold get_image_files
  exact List.Nodup.sublist (List.Sublist.map DirEntry.name (List.filter_sublist _)) hs

/-! ### Destination uniqueness for the numbered strategies -/

theorem supported_ne_nil : ∀ e ∈ supportedExtensions, e ≠ [] := by decide

theorem supported_no_proper_suffix :
    ∀ e₁ ∈ supportedExtensions, ∀ e₂ ∈ supportedExtensions,
      e₁.length < e₂.length → ¬ e₁ <:+ e₂ := by decide

theorem suffix_of_append_eq {a b e₁ e₂ : List Char}
    (h : a ++ e₁ = b ++ e₂) (hle : e₁.length ≤ e₂.length) : e₁ <:+ e₂ := by
  have h1 : e₁ <:+ (b ++ e₂) := h ▸ List.suffix_append a e₁
  have h2 : e₂ <:+ (b ++ e₂) := List.suffix_append b e₂
  rw [← List.reverse_prefix] at h1 h2 ⊢
  apply List.prefix_of_prefix_length_le h1 h2
  simpa using hle

theorem numSuffExt_inj {n₁ n₂ suf e₁ e₂ : List Char}
    (hn : n₁ ≠ n₂) (h₁ : e₁ ∈ supportedExtensions) (h₂ : e₂ ∈ supportedExtensions) :
    n₁ ++ suf ++ e₁ ≠ n₂ ++ suf ++ e₂ := by
  intro h
  rcases Nat.lt_trichotomy e₁.length e₂.length with hlt | heq | hlt
  · have := suffix_of_append_eq h (Nat.le_of_lt hlt)
    exact supported_no_proper_suffix e₁ h₁ e₂ h₂ hlt this
  · have hlen : (n₁ ++ suf).length = (n₂ ++ suf).length := by
      have := congrArg List.length h
      simp at this ⊢
      omega
    have := (List.append_inj h hlen).1
    have hn12 : n₁ = n₂ := by
      have := congrArg List.length this
      simp at this
      exact (List.append_inj ‹n₁ ++ suf = n₂ ++ suf› (by simpa using this)).1
    exact hn hn12
  · have := suffix_of_append_eq h.symm (Nat.le_of_lt hlt)
    exact supported_no_proper_suffix e₂ h₂ e₁ h₁ hlt this

theorem generate_new_name_inj (cfg : Config) {i j : Nat} {ei ej : List Char}
    (hij : i ≠ j) (hi : ei ∈ supportedExtensions) (hj : ej ∈ supportedExtensions) :
    generate_new_name cfg i ei ≠ generate_new_name cfg j ej := by
  intro h
  unfold generate_new_name at h
  have h1 := List.append_cancel_left h
  have h2 : numberString cfg.start_number cfg.padding i ++ cfg.suffixText ++ ei =
      numberString cfg.start_number cfg.padding j ++ cfg.suffixText ++ ej := by
    simpa using h1
  exact numSuffExt_inj (numberString_inj cfg.start_number cfg.padding hij) hi hj h2

theorem numberedNames_pairwise_ne (cfg : Config) (l : List DirEntry)
    (hl : ∀ f ∈ l, extLower f.name ∈ supportedExtensions) :
    List.Pairwise (fun p q : List Char × List Char => p.2 ≠ q.2)
      (mapWithIdx (fun i f => (f.name, generate_new_name cfg i (extLower f.name))) 0 l) := by
  apply pairwise_mapWithIdx
  intro i j a b ha hb hij
  exact generate_new_name_inj cfg (by omega) (hl a ha) (hl b hb)

/-! ### Date ordering lemmas -/

/-- The combined order claimed for the date strategy: ascending mtime with
lexicographic ties. -/
def dateLex (a b : DirEntry) : Prop :=
  a.mtime < b.mtime ∨ (a.mtime = b.mtime ∧ nameLe a.name b.name = true)

theorem pairwise_orderedInsertB_dateLex (a : DirEntry) :
    ∀ s : List DirEntry, List.Pairwise dateLex s →
      (∀ x ∈ s, nameLe a.name x.name = true) →
      List.Pairwise dateLex (orderedInsertB dateKeyLe a s) := by
  intro s
  induction s with
  | nil => intro _ _; simp [orderedInsertB, dateLex]
  | cons b t ih =>
    intro hp hq
    rcases List.pairwise_cons.mp hp with ⟨hb, ht⟩
    unfold orderedInsertB
    split
    · next hab =>
      have hble : a.mtime ≤ b.mtime := by simpa [dateKeyLe] using hab
      refine List.pairwise_cons.mpr ⟨?_, hp⟩
      intro y hy
      rcases List.mem_cons.mp hy with hy | hy
      · subst hy
        rcases Nat.lt_or_ge a.mtime y.mtime with hlt | hge
        · exact Or.inl hlt
        · exact Or.inr ⟨by omega, hq y (List.mem_cons_self _ _)⟩
      · have hby : b.mtime ≤ y.mtime := by
          rcases hb y hy with h | h
          · omega
          · omega
        rcases Nat.lt_or_ge a.mtime y.mtime with hlt | hge
        · exact Or.inl hlt
        · exact Or.inr ⟨by omega, hq y (List.mem_cons_of_mem _ hy)⟩
    · next hab =>
      have hba : b.mtime < a.mtime := by
        simp [dateKeyLe] at hab
        omega
      refine List.pairwise_cons.mpr ⟨?_, ?_⟩
      · intro y hy
        rcases mem_orderedInsertB.mp hy with hy | hy
        · subst hy; exact Or.inl hba
        · exact hb y hy
      · exact ih ht (fun x hx => hq x (List.mem_cons_of_mem _ hx))

theorem pairwise_dateSortedFiles (dir : List DirEntry) :
    List.Pairwise dateLex (dateSortedFiles dir) := by
  unfold dateSortedFiles
  have hsorted := get_image_files_sorted dir
  generalize get_image_files dir = l at hsorted ⊢
  induction l with
  | nil => exact List.Pairwise.nil
  | cons a t ih =>
    rcases List.pairwise_cons.mp hsorted with ⟨ha, ht⟩
    show List.Pairwise dateLex (orderedInsertB dateKeyLe a (insertionSortB dateKeyLe t))
    apply pairwise_orderedInsertB_dateLex a _ (ih ht)
    intro x hx
    exact ha x ((insertionSortB_perm dateKeyLe t).subset hx)

/-! ### execute_rename helper -/

theorem mem_mapWithIdx_of_mem {α β : Type} {f : Nat → α → β} {a : α} :
    ∀ {l : List α}, a ∈ l → ∀ s : Nat, ∃ i, f i a ∈ mapWithIdx f s l := by
  intro l
  induction l with
  | nil => intro h; cases h
  | cons x t ih =>
    intro h s
    rcases List.mem_cons.mp h with h | h
    · subst h
      exact ⟨s, List.mem_cons_self _ _⟩
    · rcases ih h (s + 1) with ⟨i, hi⟩
      exact ⟨i, List.mem_cons_of_mem _ hi⟩

/-! ### Claim theorems (first group) -/

/-- Claim C4: for the sequential and date strategies, under every
configuration, the destinations of the returned mapping are pairwise
distinct, because distinct indices give distinct zero-padded number
strings and the recognized extensions cannot make two such names
coincide. -/
theorem claim_C4_numbered_destinations_unique (cfg : Config) (dir : List DirEntry) :
    List.Pairwise (fun x y : List Char => x ≠ y) ((rename_sequential cfg dir).map Prod.snd) ∧
    List.Pairwise (fun x y : List Char => x ≠ y) ((rename_by_date cfg dir).map Prod.snd) := by
  constructor
  · unfold rename_sequential
    rw [List.pairwise_map]
    exact numberedNames_pairwise_ne cfg _ (fun f hf => get_image_files_ext f hf)
  · unfold rename_by_date
    rw [List.pairwise_map]
    apply numberedNames_pairwise_ne cfg
    intro f hf
    unfold dateSortedFiles at hf
    exact get_image_files_ext f ((insertionSortB_perm dateKeyLe _).subset hf)

/-- Claim C2 counterexample: for the clean strategy on a directory holding
two files whose names normalize to the same cleaned name that does not
exist on disk, both entries receive the identical destination, so the
new_path values of the mapping are not unique. -/
theorem claim_C2_counterexample :
    ¬ ((rename_clean
        [⟨(r"a b.png").toList, true, 0⟩, ⟨(r"a-b.png").toList, true, 0⟩]).map Prod.snd).Nodup := by
  decide

/-- Claim C2 (amended): old_path values are unique for all four
strategies whenever the directory listing has distinct names, and
new_path values are unique for the sequential and date strategies; the
clean strategy can repeat a destination (see the counterexample), and so
can the custom strategy when the template uses no number token. -/
theorem claim_C2_amended (cfg : Config) (custom_pattern : List Char) (dir : List DirEntry)
    (h : (dir.map DirEntry.name).Nodup) :
    ((rename_sequential cfg dir).map Prod.fst).Nodup ∧
    ((rename_by_date cfg dir).map Prod.fst).Nodup ∧
    ((rename_with_custom_pattern cfg custom_pattern dir).map Prod.fst).Nodup ∧
    ((rename_clean dir).map Prod.fst).Nodup ∧
    ((rename_sequential cfg dir).map Prod.snd).Nodup ∧
    ((rename_by_date cfg dir).map Prod.snd).Nodup := by
  have hsel := get_image_files_names_nodup h
  have hdate : ((dateSortedFiles dir).map DirEntry.name).Nodup := by
    unfold dateSortedFiles
    exact ((insertionSortB_perm dateKeyLe _).map DirEntry.name).nodup_iff.mpr hsel
  refine ⟨?_, ?_, ?_, ?_, ?_, ?_⟩
  · unfold rename_sequential
    rw [mapWithIdx_map_fst]
    exact hsel
  · unfold rename_by_date
    rw [mapWithIdx_map_fst]
    exact hdate
  · unfold rename_with_custom_pattern
    rw [mapWithIdx_map_fst]
    exact hsel
  · unfold rename_clean
    rw [List.map_map]
    exact hsel
  · unfold rename_sequential
    show List.Pairwise (fun x y : List Char => x ≠ y) _
    rw [List.pairwise_map]
    exact numberedNames_pairwise_ne cfg _ (fun f hf => get_image_files_ext f hf)
  · unfold rename_by_date
    show List.Pairwise (fun x y : List Char => x ≠ y) _
    rw [List.pairwise_map]
    apply numberedNames_pairwise_ne cfg
    intro f hf
    unfold dateSortedFiles at hf
    exact get_image_files_ext f ((insertionSortB_perm dateKeyLe _).subset hf)

/-- Claim C2 witness: the amended statement applied to a concrete
directory. -/
theorem claim_C2_amended_witness :
    ((rename_clean [⟨(r"a.jpg").toList, true, 0⟩]).map Prod.fst).Nodup :=
  (claim_C2_amended ⟨(r"p").toList, 1, [], [], 3, false⟩ []
    [⟨(r"a.jpg").toList, true, 0⟩] (by decide)).2.2.2.1

/-- Claim C1 (code bug evaluation): on a directory holding exactly the two
scenario files, rename_clean maps both to the identical destination
img_01.jpg — the collision loop consults only the names existing on disk
and never the destinations already claimed by earlier entries of the same
mapping, so the claimed distinct suffixed destinations never appear. -/
theorem claim_C1_code_bug_eval :
    rename_clean [⟨(r"IMG 01!.jpg").toList, true, 0⟩, ⟨(r"img-01.jpg").toList, true, 0⟩] =
      [((r"IMG 01!.jpg").toList, (r"img_01.jpg").toList),
       ((r"img-01.jpg").toList, (r"img_01.jpg").toList)] := by
  decide

/-- Claim C5: rename_by_date enumerates exactly the date-sorted selected
files, and that list is pairwise ordered by ascending last-modified time
with ties in the selector's lexicographic name order, so the index
assignment is deterministic. -/
theorem claim_C5_date_ordering (cfg : Config) (dir : List DirEntry) :
    rename_by_date cfg dir =
      mapWithIdx (fun i f => (f.name, generate_new_name cfg i (extLower f.name))) 0
        (dateSortedFiles dir) ∧
    List.Pairwise dateLex (dateSortedFiles dir) :=
  ⟨rfl, pairwise_dateSortedFiles dir⟩

/-- Claim C7: the number rendered by generate_new_name is zero-padded to
the padding width but never truncated: when the natural width is at least
the padding the full decimal string is used unchanged, the rendered width
is always the maximum of padding and natural width, and the two boundary
examples of the specification evaluate as claimed. -/
theorem claim_C7_padding_no_truncation :
    (∀ (n : Int) (w : Nat), w ≤ (intStr n).length → pyZfill w (intStr n) = intStr n) ∧
    (∀ (start : Int) (padding index : Nat),
      (numberString start padding index).length =
        max padding (intStr (start + (index : Int))).length) ∧
    numberString 998 3 0 = (r"998").toList ∧
    numberString 1000 3 0 = (r"1000").toList := by
  refine ⟨?_, ?_, by decide, by decide⟩
  · intro n w hw
    rcases lt_or_le n 0 with hn | hn
    · rw [pyZfill_intStr_neg hn]
      have hl : (intStr n).length = 1 + (natDigits (-n).toNat).length := by
        unfold intStr
        rw [if_pos hn]
        simp [Nat.add_comm]
      unfold leftFill
      rw [show w - 1 - (natDigits (-n).toNat).length = 0 by omega]
      unfold intStr
      rw [if_pos hn]
      rfl
    · rw [pyZfill_intStr_nonneg hn]
      have hl : (intStr n).length = (natDigits n.toNat).length := by
        unfold intStr
        rw [if_neg (by omega)]
      unfold leftFill
      rw [show w - (natDigits n.toNat).length = 0 by omega]
      unfold intStr
      rw [if_neg (by omega)]
      rfl
  · intro start padding index
    unfold numberString
    rcases lt_or_le (start + (index : Int)) 0 with hn | hn
    · rw [pyZfill_intStr_neg hn]
      have hl : (intStr (start + (index : Int))).length =
          1 + (natDigits (-(start + (index : Int))).toNat).length := by
        unfold intStr
        rw [if_pos hn]
        simp [Nat.add_comm]
      simp only [List.length_cons, leftFill_length]
      omega
    · rw [pyZfill_intStr_nonneg hn]
      have hl : (intStr (start + (index : Int))).length =
          (natDigits (start + (index : Int)).toNat).length := by
        unfold intStr
        rw [if_neg (by omega)]
      rw [leftFill_length]
      omega

/-- Claim C7 witness: the no-truncation clause applied at the concrete
boundary input. -/
theorem claim_C7_witness : pyZfill 3 (intStr 1000) = intStr 1000 :=
  claim_C7_padding_no_truncation.1 1000 3 (by decide)

/-- Claim C8: execute_rename performs no filesystem rename when dry_run is
set or the mapping is empty: the performed-rename list is empty, an empty
mapping reports only that there is nothing to do, and in dry-run mode
every planned pair is still reported. -/
theorem claim_C8_dry_run_frame (dry : Bool) (os : Nat → Option (List Char))
    (m : List (List Char × List Char)) (h : dry = true ∨ m = []) :
    (execute_rename dry os m).2 = [] ∧
    (m = [] → (execute_rename dry os m).1 = [OutLine.noFiles]) ∧
    (dry = true → ∀ p ∈ m, OutLine.entryLine p.1 p.2 ∈ (execute_rename dry os m).1) := by
  by_cases hm : m = []
  · subst hm
    refine ⟨by simp [execute_rename], fun _ => by simp [execute_rename], ?_⟩
    intro _ p hp
    cases hp
  · have hd : dry = true := h.resolve_right hm
    subst hd
    unfold execute_rename
    rw [if_neg hm]
    refine ⟨by simp, fun he => absurd he hm, ?_⟩
    intro _ p hp
    simp only [if_pos rfl]
    rcases mem_mapWithIdx_of_mem (f := fun i q =>
      OutLine.entryLine q.1 q.2 ::
        (if true = true then []
         else
           match os i with
           | none => []
           | some e => [OutLine.errorLine e])) hp 0 with ⟨i, hi⟩
    apply List.mem_cons_of_mem
    apply List.mem_append_left
    rw [List.mem_flatten]
    refine ⟨_, hi, ?_⟩
    exact List.mem_cons_self _ _

/-- Claim C8 witness: the frame statement applied to a concrete dry run. -/
theorem claim_C8_witness :
    (execute_rename true (fun _ => none) [((r"a.jpg").toList, (r"b.jpg").toList)]).2 = [] :=
  (claim_C8_dry_run_frame true (fun _ => none)
    [((r"a.jpg").toList, (r"b.jpg").toList)] (Or.inl rfl)).1

/-- Claim C9 (code bug evaluation): with one mapping entry whose rename
raises, execute_rename prints the per-entry error line and performs no
rename, yet its closing summary still reports the full mapping size (one
file) as successfully renamed, so the reported count does not equal the
number of successful renames. -/
theorem claim_C9_code_bug_eval :
    execute_rename false (fun _ => some ((r"boom").toList))
        [((r"a.jpg").toList, (r"b.jpg").toList)] =
      ([OutLine.header false 1,
        OutLine.entryLine (r"a.jpg").toList (r"b.jpg").toList,
        OutLine.errorLine (r"boom").toList,
        OutLine.successSummary 1], []) := by
  decide

/-! ### Reference definitions for the clean normalization (from the
specification's words, used to compare against the source's
clean_filename) -/

/-- Collapse runs of hyphens and whitespace into single underscores,
written with a one-character lookahead as the specification describes the
collapsing of each run. -/
def specCollapse : List Char → List Char
  | [] => []
  | [c] => if isHypWS c then ['_'] else [c]
  | c :: d :: r =>
    if isHypWS c then
      (if isHypWS d then specCollapse (d :: r) else '_' :: specCollapse (d :: r))
    else c :: specCollapse (d :: r)

/-- The normalization exactly as claim C3 words it: remove every character
that is not alphanumeric, whitespace, or a hyphen; collapse runs of
hyphens and whitespace into one underscore; trim leading and trailing
underscores; lower-case; re-append the original extension lower-cased. -/
def clean_filename_spec (filename : List Char) : List Char :=
  match rsplitDot filename with
  | some (s, e) =>
      (stripUnd (specCollapse
        (List.filter (fun c => c.isAlphanum || isPyWS c || c == '-') s))).map pyLower ++
        ('.' :: e).map pyLower
  | none =>
      (stripUnd (specCollapse
        (List.filter (fun c => c.isAlphanum || isPyWS c || c == '-') filename))).map pyLower

/-- The normalization with the two corrections the source forces: the
underscore is also kept (the word class of the regular expression
includes it), and the extension is re-appended unchanged, not
lower-cased. -/
def clean_filename_spec_amended (filename : List Char) : List Char :=
  match rsplitDot filename with
  | some (s, e) =>
      (stripUnd (specCollapse
        (List.filter (fun c => c.isAlphanum || c == '_' || isPyWS c || c == '-') s))).map pyLower ++
        '.' :: e
  | none =>
      (stripUnd (specCollapse
        (List.filter (fun c => c.isAlphanum || c == '_' || isPyWS c || c == '-') filename))).map pyLower

theorem collapseRuns_eq_specCollapse : ∀ l : List Char, collapseRuns l = specCollapse l := by
  intro l
  induction l with
  | nil => rfl
  | cons c r ih =>
    cases r with
    | nil =>
      by_cases h : isHypWS c <;> simp [collapseRuns, collapseAfterRun, specCollapse, h]
    | cons d r' =>
      by_cases h1 : isHypWS c
      · by_cases h2 : isHypWS d
        · have e1 : collapseRuns (c :: d :: r') = '_' :: collapseAfterRun r' := by
            simp [collapseRuns, collapseAfterRun, h1, h2]
          have e2 : collapseRuns (d :: r') = '_' :: collapseAfterRun r' := by
            simp [collapseRuns, h2]
          have e3 : specCollapse (c :: d :: r') = specCollapse (d :: r') := by
            simp [specCollapse, h1, h2]
          rw [e1, e3, ← ih, e2]
        · have e1 : collapseRuns (c :: d :: r') = '_' :: d :: collapseRuns r' := by
            simp [collapseRuns, collapseAfterRun, h1, h2]
          have e2 : collapseRuns (d :: r') = d :: collapseRuns r' := by
            simp [collapseRuns, h2]
          have e3 : specCollapse (c :: d :: r') = '_' :: specCollapse (d :: r') := by
            simp [specCollapse, h1, h2]
          rw [e1, e3, ← ih, e2]
      · have e1 : collapseRuns (c :: d :: r') = c :: collapseRuns (d :: r') := by
          simp [collapseRuns, h1]
        have e3 : specCollapse (c :: d :: r') = c :: specCollapse (d :: r') := by
          simp [specCollapse, h1]
        rw [e1, e3, ih]

theorem keepChar_eq (c : Char) :
    keepChar c = (c.isAlphanum || c == '_' || isPyWS c || c == '-') := by
  unfold keepChar isWordChar
  cases c.isAlphanum <;> cases c == '_' <;> cases isPyWS c <;> cases c == '-' <;> rfl

theorem cleanStem_eq_spec (s : List Char) :
    cleanStem s =
      (stripUnd (specCollapse
        (List.filter (fun c => c.isAlphanum || c == '_' || isPyWS c || c == '-') s))).map
        pyLower := by
  unfold cleanStem
  rw [← collapseRuns_eq_specCollapse]
  have hf : List.filter keepChar s =
      List.filter (fun c => c.isAlphanum || c == '_' || isPyWS c || c == '-') s :=
    List.filter_congr (fun x _ => keepChar_eq x)
  rw [hf]

/-- Claim C3 counterexample: on the name A_b!.JPG the source keeps the
underscore (the word class includes it) and leaves the extension's case
unchanged, while the claim's reference normalization drops the underscore
and lower-cases the extension, so the two disagree. -/
theorem claim_C3_counterexample :
    clean_filename ((r"A_b!.JPG").toList) ≠ clean_filename_spec ((r"A_b!.JPG").toList) := by
  decide

/-- Claim C3 (amended): clean_filename equals the reference normalization
once the kept character class also includes the underscore and the
extension is re-appended unchanged rather than lower-cased. -/
theorem claim_C3_amended_clean_equals_spec (name : List Char) :
    clean_filename name = clean_filename_spec_amended name := by
  unfold clean_filename clean_filename_spec_amended
  cases h : rsplitDot name with
  | none => exact cleanStem_eq_spec name
  | some p =>
    cases p with
    | mk s e =>
      simp only []
      rw [cleanStem_eq_spec]

/-! ### Idempotence of the clean normalization -/

theorem mem_collapse_both : ∀ l : List Char,
    (∀ c ∈ collapseRuns l, c = '_' ∨ (c ∈ l ∧ isHypWS c = false)) ∧
    (∀ c ∈ collapseAfterRun l, c = '_' ∨ (c ∈ l ∧ isHypWS c = false)) := by
  intro l
  induction l with
  | nil => exact ⟨fun c hc => absurd hc (by simp [collapseRuns]), fun c hc => absurd hc (by simp [collapseAfterRun])⟩
  | cons x r ih =>
    rcases ih with ⟨ihR, ihA⟩
    constructor
    · intro c hc
      by_cases h : isHypWS x
      · rw [show collapseRuns (x :: r) = '_' :: collapseAfterRun r by simp [collapseRuns, h]] at hc
        rcases List.mem_cons.mp hc with hc | hc
        · exact Or.inl hc
        · rcases ihA c hc with h1 | ⟨h1, h2⟩
          · exact Or.inl h1
          · exact Or.inr ⟨List.mem_cons_of_mem _ h1, h2⟩
      · rw [show collapseRuns (x :: r) = x :: collapseRuns r by simp [collapseRuns, h]] at hc
        rcases List.mem_cons.mp hc with hc | hc
        · subst hc
          exact Or.inr ⟨List.mem_cons_self _ _, by simpa using h⟩
        · rcases ihR c hc with h1 | ⟨h1, h2⟩
          · exact Or.inl h1
          · exact Or.inr ⟨List.mem_cons_of_mem _ h1, h2⟩
    · intro c hc
      by_cases h : isHypWS x
      · rw [show collapseAfterRun (x :: r) = collapseAfterRun r by simp [collapseAfterRun, h]] at hc
        rcases ihA c hc with h1 | ⟨h1, h2⟩
        · exact Or.inl h1
        · exact Or.inr ⟨List.mem_cons_of_mem _ h1, h2⟩
      · rw [show collapseAfterRun (x :: r) = x :: collapseRuns r by simp [collapseAfterRun, h]] at hc
        rcases List.mem_cons.mp hc with hc | hc
        · subst hc
          exact Or.inr ⟨List.mem_cons_self _ _, by simpa using h⟩
        · rcases ihR c hc with h1 | ⟨h1, h2⟩
          · exact Or.inl h1
          · exact Or.inr ⟨List.mem_cons_of_mem _ h1, h2⟩

theorem collapseRuns_eq_self {l : List Char} (h : ∀ c ∈ l, isHypWS c = false) :
    collapseRuns l = l := by
  induction l with
  | nil => rfl
  | cons x r ih =>
    have hx : isHypWS x = false := h x (List.mem_cons_self _ _)
    rw [show collapseRuns (x :: r) = x :: collapseRuns r by simp [collapseRuns, hx]]
    rw [ih (fun c hc => h c (List.mem_cons_of_mem _ hc))]

theorem stripUnd_subset {l : List Char} : ∀ c ∈ stripUnd l, c ∈ l := by
  intro c hc
  unfold stripUnd at hc
  rw [List.mem_reverse] at hc
  have h1 := (List.dropWhile_suffix (fun c => c == '_')).subset hc
  rw [List.mem_reverse] at h1
  exact (List.dropWhile_suffix (fun c => c == '_')).subset h1

theorem dropWhile_und_head {y : List Char} {c : Char}
    (h : (y.dropWhile (fun x => x == '_')).head? = some c) : (c == '_') = false := by
  induction y with
  | nil => simp at h
  | cons x r ih =>
    rw [List.dropWhile_cons] at h
    by_cases hx : (x == '_') = true
    · rw [if_pos hx] at h
      exact ih h
    · rw [if_neg hx] at h
      simp at h
      subst h
      simpa using hx

theorem suffix_getLast? {l₁ l₂ : List Char} (h : l₁ <:+ l₂) (hne : l₁ ≠ []) :
    l₂.getLast? = l₁.getLast? := by
  rcases h with ⟨t, rfl⟩
  rw [List.getLast?_append]
  cases he : l₁.getLast? with
  | none => exact absurd (List.getLast?_eq_none_iff.mp he) hne
  | some c => rfl

theorem stripUnd_head {l : List Char} {c : Char} (h : (stripUnd l).head? = some c) :
    (c == '_') = false := by
  unfold stripUnd at h
  rw [List.head?_reverse] at h
  have hb : List.dropWhile (fun c => c == '_') ((l.dropWhile (fun c => c == '_')).reverse) ≠ [] := by
    intro hnil
    rw [hnil] at h
    simp at h
  have := suffix_getLast? (List.dropWhile_suffix (fun c => c == '_')) hb
  rw [← this, List.getLast?_reverse] at h
  exact dropWhile_und_head h

theorem stripUnd_last {l : List Char} {c : Char} (h : (stripUnd l).getLast? = some c) :
    (c == '_') = false := by
  unfold stripUnd at h
  rw [List.getLast?_reverse] at h
  exact dropWhile_und_head h

theorem stripUnd_eq_self {y : List Char}
    (h1 : ∀ c, y.head? = some c → (c == '_') = false)
    (h2 : ∀ c, y.getLast? = some c → (c == '_') = false) : stripUnd y = y := by
  have ha : y.dropWhile (fun c => c == '_') = y := by
    cases y with
    | nil => rfl
    | cons x r =>
      rw [List.dropWhile_cons, if_neg (by simpa using h1 x rfl)]
  unfold stripUnd
  rw [ha]
  have hb : y.reverse.dropWhile (fun c => c == '_') = y.reverse := by
    cases hy : y.reverse with
    | nil => rfl
    | cons x r =>
      have hx : y.getLast? = some x := by
        rw [← List.head?_reverse, hy]
        rfl
      rw [List.dropWhile_cons, if_neg (by simpa using h2 x hx)]
  rw [hb, List.reverse_reverse]

theorem cleanStem_chars {s : List Char} :
    ∀ c ∈ cleanStem s,
      keepChar c = true ∧ isHypWS c = false ∧ c ≠ '.' ∧ pyLower c = c := by
  intro c hc
  unfold cleanStem at hc
  rcases List.mem_map.mp hc with ⟨c0, hc0, rfl⟩
  have hcol := stripUnd_subset _ hc0
  rcases (mem_collapse_both _).1 c0 hcol with h | ⟨hmem, hhyp⟩
  · subst h
    exact ⟨by decide, by decide, by decide, by decide⟩
  · have hkeep : keepChar c0 = true := List.of_mem_filter hmem
    have hdot : c0 ≠ '.' := by
      intro hd
      rw [hd] at hkeep
      exact absurd hkeep (by decide)
    exact ⟨keepChar_pyLower hkeep, pyLower_not_hypWS hhyp, pyLower_ne_dot hdot,
      pyLower_idem c0⟩

theorem cleanStem_no_dot (s : List Char) : '.' ∉ cleanStem s := by
  intro h
  exact (cleanStem_chars '.' h).2.2.1 rfl

theorem cleanStem_head {s : List Char} {c : Char} (h : (cleanStem s).head? = some c) :
    (c == '_') = false := by
  unfold cleanStem at h
  rw [List.head?_map] at h
  cases he : (stripUnd (collapseRuns (List.filter keepChar s))).head? with
  | none => rw [he] at h; simp at h
  | some c0 =>
    rw [he] at h
    simp at h
    have h0 : c0 ≠ '_' := by simpa using stripUnd_head he
    simpa [← h] using pyLower_ne_underscore h0

theorem cleanStem_last {s : List Char} {c : Char} (h : (cleanStem s).getLast? = some c) :
    (c == '_') = false := by
  unfold cleanStem at h
  rw [List.getLast?_map] at h
  cases he : (stripUnd (collapseRuns (List.filter keepChar s))).getLast? with
  | none => rw [he] at h; simp at h
  | some c0 =>
    rw [he] at h
    simp at h
    have h0 : c0 ≠ '_' := by simpa using stripUnd_last he
    simpa [← h] using pyLower_ne_underscore h0

theorem cleanStem_idem (s : List Char) : cleanStem (cleanStem s) = cleanStem s := by
  have hf : List.filter keepChar (cleanStem s) = cleanStem s :=
    List.filter_eq_self.mpr (fun c hc => (cleanStem_chars c hc).1)
  have hcol : collapseRuns (cleanStem s) = cleanStem s :=
    collapseRuns_eq_self (fun c hc => (cleanStem_chars c hc).2.1)
  have hstrip : stripUnd (cleanStem s) = cleanStem s :=
    stripUnd_eq_self (fun c hc => cleanStem_head hc) (fun c hc => cleanStem_last hc)
  have hmap : (cleanStem s).map pyLower = cleanStem s := by
    rw [List.map_congr_left (fun c hc => (cleanStem_chars c hc).2.2.2)]
    exact List.map_id _
  show (stripUnd (collapseRuns (List.filter keepChar (cleanStem s)))).map pyLower = cleanStem s
  rw [hf, hcol, hstrip, hmap]

/-- Claim C10: clean_filename is idempotent — applying it to its own
output returns the output unchanged, so re-running the clean strategy
over names it produced recomputes the same names. -/
theorem claim_C10_clean_filename_idempotent (name : List Char) :
    clean_filename (clean_filename name) = clean_filename name := by
  cases h : rsplitDot name with
  | none =>
    have h1 : clean_filename name = cleanStem name := by
      unfold clean_filename
      rw [h]
    rw [h1]
    have h2 : rsplitDot (cleanStem name) = none :=
      rsplitDot_eq_none.mpr (cleanStem_no_dot name)
    unfold clean_filename
    rw [h2]
    exact cleanStem_idem name
  | some p =>
    cases p with
    | mk s e =>
      have hee : '.' ∉ e := (rsplitDot_some h).2
      have h1 : clean_filename name = cleanStem s ++ '.' :: e := by
        unfold clean_filename
        rw [h]
      rw [h1]
      have h2 : rsplitDot (cleanStem s ++ '.' :: e) = some (cleanStem s, e) :=
        rsplitDot_append (cleanStem_no_dot s) hee
      unfold clean_filename
      rw [h2]
      show cleanStem (cleanStem s) ++ '.' :: e = cleanStem s ++ '.' :: e
      rw [cleanStem_idem]

/-! ### Custom-pattern substitution: reference definition and equivalence -/

/-- The literal token replaced by the number. -/
def tokenN : List Char := ['{', 'n', '}']

/-- The literal token replaced by the extension. -/
def tokenExt : List Char := ['{', 'e', 'x', 't', '}']

/-- The substitution exactly as claim C6 words it: one pass over the
template, replacing every occurrence of the number token with the padded
number and every occurrence of the extension token with the lower-cased
extension, leaving all other template text verbatim. -/
def specSubstitute (x e : List Char) : List Char → List Char
  | '{' :: 'n' :: '}' :: r => x ++ specSubstitute x e r
  | '{' :: 'e' :: 'x' :: 't' :: '}' :: r => e ++ specSubstitute x e r
  | c :: r => c :: specSubstitute x e r
  | [] => []

theorem replaceN_cons_step {x : List Char} {c : Char} {r : List Char}
    (h : tokenN.isPrefixOf (c :: r) = false) :
    replaceN x (c :: r) = c :: replaceN x r := by
  rw [replaceN.eq_def]
  split
  · next r' heq =>
    exfalso
    rw [show c :: r = '{' :: 'n' :: '}' :: r' from heq] at h
    simp [tokenN, List.isPrefixOf] at h
  · next c' r' heq =>
    rw [List.cons.injEq] at heq
    rw [heq.1, heq.2]
  · next heq => cases heq

theorem replaceExt_cons_step {e : List Char} {c : Char} {r : List Char}
    (h : tokenExt.isPrefixOf (c :: r) = false) :
    replaceExt e (c :: r) = c :: replaceExt e r := by
  rw [replaceExt.eq_def]
  split
  · next r' heq =>
    exfalso
    rw [show c :: r = '{' :: 'e' :: 'x' :: 't' :: '}' :: r' from heq] at h
    simp [tokenExt, List.isPrefixOf] at h
  · next c' r' heq =>
    rw [List.cons.injEq] at heq
    rw [heq.1, heq.2]
  · next heq => cases heq

theorem specSubstitute_cons_step {x e : List Char} {c : Char} {r : List Char}
    (h1 : tokenN.isPrefixOf (c :: r) = false) (h2 : tokenExt.isPrefixOf (c :: r) = false) :
    specSubstitute x e (c :: r) = c :: specSubstitute x e r := by
  rw [specSubstitute.eq_def]
  split
  · next r' heq =>
    exfalso
    rw [show c :: r = '{' :: 'n' :: '}' :: r' from heq] at h1
    simp [tokenN, List.isPrefixOf] at h1
  · next r' heq =>
    exfalso
    rw [show c :: r = '{' :: 'e' :: 'x' :: 't' :: '}' :: r' from heq] at h2
    simp [tokenExt, List.isPrefixOf] at h2
  · next c' r' heq =>
    rw [List.cons.injEq] at heq
    rw [heq.1, heq.2]
  · next heq => cases heq

theorem isPrefixOf_cons_of_head_ne {p : List Char} {a c : Char} {ps r : List Char}
    (hp : p = a :: ps) (hc : c ≠ a) : p.isPrefixOf (c :: r) = false := by
  subst hp
  simp [List.isPrefixOf]
  intro hca
  exact absurd hca.symm hc

/-- The characters a padded number string can use never begin the
extension token. -/
theorem numChar_ne_lbrace {c : Char} (h : c.isDigit = true ∨ c = '-') : c ≠ '{' := by
  rcases h with h | h
  · intro hc
    rw [hc] at h
    exact absurd h (by decide)
  · rw [h]
    decide

theorem replaceExt_append_clean {e : List Char} {z w : List Char}
    (hz : ∀ c ∈ z, c.isDigit = true ∨ c = '-') :
    replaceExt e (z ++ w) = z ++ replaceExt e w := by
  induction z with
  | nil => simp
  | cons c z' ih =>
    have hc : c ≠ '{' := numChar_ne_lbrace (hz c (List.mem_cons_self _ _))
    rw [List.cons_append,
      replaceExt_cons_step (isPrefixOf_cons_of_head_ne rfl hc),
      ih (fun d hd => hz d (List.mem_cons_of_mem _ hd))]
    rfl

/-- replaceN leaves the extension token in place: none of its five
characters begins the number token at any of its positions. -/
theorem replaceN_ext_token {x : List Char} (w : List Char) :
    replaceN x ('{' :: 'e' :: 'x' :: 't' :: '}' :: w) =
      '{' :: 'e' :: 'x' :: 't' :: '}' :: replaceN x w := by
  have s1 : tokenN.isPrefixOf ('{' :: 'e' :: 'x' :: 't' :: '}' :: w) = false := by
    simp [tokenN, List.isPrefixOf]
  rw [replaceN_cons_step s1,
    replaceN_cons_step (isPrefixOf_cons_of_head_ne rfl (by decide)),
    replaceN_cons_step (isPrefixOf_cons_of_head_ne rfl (by decide)),
    replaceN_cons_step (isPrefixOf_cons_of_head_ne rfl (by decide)),
    replaceN_cons_step (isPrefixOf_cons_of_head_ne rfl (by decide))]

/-- The nonempty suffixes of the extension token. -/
def extSuffixes : List (List Char) :=
  [['{', 'e', 'x', 't', '}'], ['e', 'x', 't', '}'], ['x', 't', '}'], ['t', '}'], ['}']]

theorem extSuffixes_ne_nil : ∀ s ∈ extSuffixes, s ≠ [] := by decide

theorem extSuffixes_head : ∀ s ∈ extSuffixes, s.headI.isDigit = false ∧ s.headI ≠ '-' := by
  decide

theorem extSuffixes_tail : ∀ s ∈ extSuffixes, s.tail = [] ∨ s.tail ∈ extSuffixes := by decide

/-- Prefix reflection: the first replace pass cannot create a new
occurrence of (a suffix of) the extension token that was not already in
the template, because the number string shares no characters with it. -/
theorem replaceN_prefix_reflect {x : List Char}
    (hx : ∀ c ∈ x, c.isDigit = true ∨ c = '-') (hxne : x ≠ []) :
    ∀ (n : Nat) (z : List Char), z.length ≤ n → ∀ s ∈ extSuffixes,
      s.isPrefixOf (replaceN x z) = true → s.isPrefixOf z = true := by
  intro n
  induction n with
  | zero =>
    intro z hz s hs h
    have hznil : z = [] := List.eq_nil_of_length_eq_zero (by omega)
    subst hznil
    exact h
  | succ n ih =>
    intro z hz s hs h
    obtain ⟨c0, s', rfl⟩ : ∃ c0 s', s = c0 :: s' := by
      cases s with
      | nil => exact absurd rfl (extSuffixes_ne_nil [] hs)
      | cons a b => exact ⟨a, b, rfl⟩
    have hhead := extSuffixes_head _ hs
    have htail := extSuffixes_tail _ hs
    simp only [List.headI, List.tail] at hhead htail
    cases z with
    | nil => exact h
    | cons c r =>
      by_cases hp : tokenN.isPrefixOf (c :: r) = true
      · exfalso
        rcases List.isPrefixOf_iff_prefix.mp hp with ⟨w, hw⟩
        have hzshape : c :: r = '{' :: 'n' :: '}' :: w := by
          rw [← hw]
          rfl
        rw [hzshape] at h
        have hrepl : replaceN x ('{' :: 'n' :: '}' :: w) = x ++ replaceN x w := rfl
        rw [hrepl] at h
        cases hxe : x with
        | nil => exact hxne hxe
        | cons x0 x' =>
          rw [hxe, List.cons_append] at h
          simp only [List.isPrefixOf, Bool.and_eq_true, beq_iff_eq] at h
          have hx0 := hx x0 (by rw [hxe]; exact List.mem_cons_self _ _)
          rcases hx0 with h0 | h0
          · have hcontra : x0.isDigit = false := h.1 ▸ hhead.1
            rw [h0] at hcontra
            cases hcontra
          · exact hhead.2 (h.1.trans h0)
      · simp only [Bool.not_eq_true] at hp
        rw [replaceN_cons_step hp] at h
        simp only [List.isPrefixOf, Bool.and_eq_true, beq_iff_eq] at h ⊢
        refine ⟨h.1, ?_⟩
        rcases htail with hs' | hs'
        · subst hs'
          cases r <;> rfl
        · have hr : r.length ≤ n := by
            simp only [List.length_cons] at hz
            omega
          exact ih r hr s' hs' h.2

/-- The two sequential replace passes of the source equal the one-pass
substitution described by the specification, for any replacement of the
number token drawn from padded decimal strings. -/
theorem subst_equiv {x e : List Char}
    (hx : ∀ c ∈ x, c.isDigit = true ∨ c = '-') (hxne : x ≠ []) :
    ∀ (n : Nat) (t : List Char), t.length ≤ n →
      replaceExt e (replaceN x t) = specSubstitute x e t := by
  intro n
  induction n with
  | zero =>
    intro t ht
    have : t = [] := List.eq_nil_of_length_eq_zero (by omega)
    subst this
    rfl
  | succ n ih =>
    intro t ht
    cases t with
    | nil => rfl
    | cons c r =>
      simp only [List.length_cons] at ht
      by_cases h1 : tokenN.isPrefixOf (c :: r) = true
      · rcases List.isPrefixOf_iff_prefix.mp h1 with ⟨w, hw⟩
        have hzshape : c :: r = '{' :: 'n' :: '}' :: w := by
          rw [← hw]
          rfl
        have hwlen : w.length ≤ n := by
          have hlen := congrArg List.length hzshape
          simp only [List.length_cons] at hlen
          omega
        rw [hzshape]
        have e1 : replaceN x ('{' :: 'n' :: '}' :: w) = x ++ replaceN x w := rfl
        have e2 : specSubstitute x e ('{' :: 'n' :: '}' :: w) = x ++ specSubstitute x e w := rfl
        rw [e1, e2, replaceExt_append_clean hx, ih w hwlen]
      · by_cases h2 : tokenExt.isPrefixOf (c :: r) = true
        · rcases List.isPrefixOf_iff_prefix.mp h2 with ⟨w, hw⟩
          have hzshape : c :: r = '{' :: 'e' :: 'x' :: 't' :: '}' :: w := by
            rw [← hw]
            rfl
          have hwlen : w.length ≤ n := by
            have hlen := congrArg List.length hzshape
            simp only [List.length_cons] at hlen
            omega
          rw [hzshape, replaceN_ext_token]
          have e1 : replaceExt e ('{' :: 'e' :: 'x' :: 't' :: '}' :: replaceN x w) =
              e ++ replaceExt e (replaceN x w) := rfl
          have e2 : specSubstitute x e ('{' :: 'e' :: 'x' :: 't' :: '}' :: w) =
              e ++ specSubstitute x e w := rfl
          rw [e1, e2, ih w hwlen]
        · simp only [Bool.not_eq_true] at h1 h2
          rw [replaceN_cons_step h1]
          have hrlen : r.length ≤ n := by omega
          have hno : tokenExt.isPrefixOf (c :: replaceN x r) = false := by
            cases hcheck : tokenExt.isPrefixOf (c :: replaceN x r) with
            | false => rfl
            | true =>
              exfalso
              have hrw : tokenExt.isPrefixOf (replaceN x (c :: r)) = true := by
                rw [replaceN_cons_step h1]
                exact hcheck
              have := replaceN_prefix_reflect hx hxne (c :: r).length (c :: r)
                (Nat.le_refl _) tokenExt (by simp [extSuffixes, tokenExt]) hrw
              rw [this] at h2
              cases h2
          rw [replaceExt_cons_step hno, specSubstitute_cons_step h1 h2, ih r hrlen]

/-- Claim C6: the custom strategy's name for the file at position i is the
template with every occurrence of the number token replaced by the padded
number and every occurrence of the extension token replaced by the
lower-cased extension, all other text verbatim (the one-pass reference
substitution); and the concrete scenario of the specification holds. -/
theorem claim_C6_custom_pattern (cfg : Config) (custom_pattern : List Char)
    (dir : List DirEntry) :
    rename_with_custom_pattern cfg custom_pattern dir =
      mapWithIdx
        (fun i f =>
          (f.name,
            specSubstitute (numberString cfg.start_number cfg.padding i)
              (extLower f.name) custom_pattern)) 0 (get_image_files dir) ∧
    rename_with_custom_pattern ⟨(r"product").toList, 5, [], [], 1, false⟩
        ((r"photo_{n}{ext}").toList) [⟨(r"x.png").toList, true, 0⟩] =
      [((r"x.png").toList, (r"photo_5.png").toList)] := by
  constructor
  · unfold rename_with_custom_pattern
    apply mapWithIdx_congr
    intro i f
    rw [subst_equiv (numberString_chars cfg.start_number cfg.padding i)
      (numberString_ne_nil cfg.start_number cfg.padding i) custom_pattern.length
      custom_pattern (Nat.le_refl _)]
  · decide
